import Mathlib

/-!
Verification development for the bt-servant-whatsapp-gateway repository.

The gateway relays WhatsApp webhook traffic to a backend engine and relays the
engine's asynchronous results back to the user. This file gives a shallow
embedding of the parts of the TypeScript source that carry correctness rules:

* `src/services/chunking.ts` — the message chunking algorithm
  (`chunkMessage`, `reattachDelimiters`, `combineIntoChunks`, `forceSplit`),
  plus the engine chat client's `fetchWithRetry`;
* `src/services/meta-api/signature.ts` — webhook signature verification
  (`verifySignature`, `verifySha1Signature`, `verifyFacebookSignature`) and
  `src/utils/crypto.ts` (`arrayBufferToHex`, `constantTimeCompare`), with
  HMAC-SHA256 / HMAC-SHA1 implemented concretely (FIPS 180-4, RFC 2104) in
  place of the Web Crypto calls the source makes;
* `src/services/engine-client.ts` — the queued dispatch client `sendMessage`;
* `src/services/message-handler.ts` — `parseMessage`,
  `validateCompletionCallback`, `handleCompletionCallback`, `sendResponses`;
* `src/index.ts` — the `/completion-callback` route handler.

JavaScript strings are modelled as `List Char`; machine integers as `Nat`
with explicit `% 2 ^ 32` where 32-bit overflow matters; bytes as `Nat` kept
below 256. Network responses are modelled by an oracle `Nat → EngineResponse`
giving the n-th fetch's result, and the outbound WhatsApp client by the list
of (recipient, text) messages a handler sends through it.
-/

/-! ## JavaScript string primitives -/

/-- The whitespace class of JS `String.prototype.trim` (the members that can
occur in this code base's data: space, tab, LF, CR, VT, FF, NBSP, BOM). -/
def jsWS (c : Char) : Bool :=
  c = ' ' || c = '\t' || c = '\n' || c = '\r' ||
  c = Char.ofNat 11 || c = Char.ofNat 12 || c = Char.ofNat 0xa0 || c = Char.ofNat 0xfeff

/-- JS `s.trim()`: strip whitespace from both ends. -/
def jsTrim (l : List Char) : List Char :=
  ((l.dropWhile jsWS).reverse.dropWhile jsWS).reverse

/-- Truthiness of a JS string-or-nullish value: `null`/`undefined` and the
empty string are falsy (`if (signature)`, `if (sig256)`). -/
def jsTruthyStr (o : Option (List Char)) : Bool :=
  match o with
  | none => false
  | some s => s ≠ []

/-- The complement of `jsWS`, for stating which characters chunking must
preserve. -/
def nonWS (c : Char) : Bool := !jsWS c

/-- A string neither starting nor ending with whitespace (trimming it is a
no-op); the shape every emitted chunk keeps. -/
def noEdgeWS (l : List Char) : Prop :=
  (∀ c, l.head? = some c → jsWS c = false) ∧ (∀ c, l.getLast? = some c → jsWS c = false)

/-! ## Chunker (`src/services/chunking.ts`) -/

/-- `SENTENCE_DELIMITERS = new Set(['.', ';', '\n\n'])`. -/
def sentenceDelimiters : List (List Char) := [['.'], [';'], ['\n', '\n']]

/-- `text.split(/(\.|;|\n\n)/)`: the captured-delimiter split, producing the
alternating list of text parts and one-delimiter parts that JS returns. The
first argument accumulates the current text part in reverse. -/
def splitWithDelims : List Char → List Char → List (List Char)
  | acc, [] => [acc.reverse]
  | acc, '.' :: rest => acc.reverse :: ['.'] :: splitWithDelims [] rest
  | acc, ';' :: rest => acc.reverse :: [';'] :: splitWithDelims [] rest
  | acc, '\n' :: '\n' :: rest => acc.reverse :: ['\n', '\n'] :: splitWithDelims [] rest
  | acc, c :: rest => splitWithDelims (c :: acc) rest

/-- `reattachDelimiters(pieces)`: join each delimiter onto the text piece
before it, trim each joined piece, and drop the ones that trim to nothing. -/
def reattachDelimiters : List (List Char) → List (List Char)
  | [] => []
  | [p] =>
    let t := jsTrim p
    if t = [] then [] else [t]
  | p :: q :: rest =>
    if q ∈ sentenceDelimiters then
      (let t := jsTrim (p ++ q); if t = [] then [] else [t]) ++ reattachDelimiters rest
    else
      (let t := jsTrim p; if t = [] then [] else [t]) ++ reattachDelimiters (q :: rest)

/-- The loop of `combineIntoChunks`: `current` is the chunk under
construction (`''` at the start), appended to with a single-space separator
while the piece fits, pushed and restarted when it does not. -/
def combineGo (maxLength : Nat) : List (List Char) → List Char → List (List Char)
  | [], current => if current = [] then [] else [current]
  | piece :: rest, current =>
    let sep : List Char := if current = [] then [] else [' ']
    if current.length + sep.length + piece.length ≤ maxLength then
      combineGo maxLength rest (current ++ sep ++ piece)
    else
      (if current = [] then [] else [current]) ++ combineGo maxLength rest piece

/-- `combineIntoChunks(pieces, maxLength)`. -/
def combineIntoChunks (pieces : List (List Char)) (maxLength : Nat) : List (List Char) :=
  combineGo maxLength pieces []

/-- `splitAtSentences(text, maxLength)`. -/
def splitAtSentences (text : List Char) (maxLength : Nat) : List (List Char) :=
  combineIntoChunks (reattachDelimiters (splitWithDelims [] text)) maxLength

/-- `remaining.lastIndexOf(' ', k)`: the largest index `i ≤ k` holding a
space, `none` when there is none (the source's `-1`). -/
def lastSpaceIndex : List Char → Nat → Option Nat
  | [], _ => none
  | c :: _, 0 => if c = ' ' then some 0 else none
  | c :: rest, k + 1 =>
    match lastSpaceIndex rest k with
    | some i => some (i + 1)
    | none => if c = ' ' then some 0 else none

/-- The `while (remaining.length > maxLength)` loop of `forceSplit`, written
with explicit fuel; `forceSplit` passes `text.length`, which suffices for
every `maxLength ≥ 1` because each iteration strictly shortens `remaining`
(for `maxLength = 0` the source loop itself does not terminate). -/
def forceSplitGo (maxLength : Nat) : Nat → List Char → List (List Char)
  | 0, remaining => if remaining = [] then [] else [remaining]
  | fuel + 1, remaining =>
    if remaining.length ≤ maxLength then
      if remaining = [] then [] else [remaining]
    else
      let splitPoint := (lastSpaceIndex remaining maxLength).getD maxLength
      let chunk := jsTrim (remaining.take splitPoint)
      let rest := jsTrim (remaining.drop splitPoint)
      (if chunk = [] then [] else [chunk]) ++ forceSplitGo maxLength fuel rest

/-- `forceSplit(text, maxLength)`. -/
def forceSplit (text : List Char) (maxLength : Nat) : List (List Char) :=
  forceSplitGo maxLength text.length text

/-- `chunkMessage(text, maxLength)`: texts at or under the limit pass through
unchanged; longer texts are split at sentence boundaries and any chunk still
over the limit is force-split. -/
def chunkMessage (text : List Char) (maxLength : Nat) : List (List Char) :=
  if text.length ≤ maxLength then [text]
  else
    (splitAtSentences text maxLength).flatMap fun c =>
      if c.length ≤ maxLength then [c] else forceSplit c maxLength

/-! ## Hashing (stands in for the Web Crypto `crypto.subtle` HMAC calls)

Bytes are `Nat` below 256, 32-bit words are `Nat` reduced mod `2 ^ 32`. The
implementations follow FIPS 180-4 (SHA-256, SHA-1) and RFC 2104 (HMAC) and
reproduce the standard test vectors. -/

/-- Reduce to a 32-bit word. -/
def w32 (n : Nat) : Nat := n % 4294967296

/-- 32-bit rotate right. -/
def rotr32 (n x : Nat) : Nat := w32 ((x >>> n) ||| (x <<< (32 - n)))

/-- 32-bit rotate left. -/
def rotl32 (n x : Nat) : Nat := w32 ((x <<< n) ||| (x >>> (32 - n)))

/-- Merkle–Damgård padding shared by SHA-1 and SHA-256: append `0x80`,
zero-pad to 56 mod 64, then the 64-bit big-endian bit length. -/
def mdPad (msg : List Nat) : List Nat :=
  let len := msg.length
  let zeroCount := (119 - len % 64) % 64
  let bitLen := len * 8
  msg ++ [0x80] ++ List.replicate zeroCount 0 ++
    [w32 (bitLen >>> 56) % 256, (bitLen >>> 48) % 256, (bitLen >>> 40) % 256,
     (bitLen >>> 32) % 256, (bitLen >>> 24) % 256, (bitLen >>> 16) % 256,
     (bitLen >>> 8) % 256, bitLen % 256]

/-- Split into 64-byte blocks; fuel equal to the list length always
suffices. -/
def toBlocks : Nat → List Nat → List (List Nat)
  | 0, _ => []
  | _ + 1, [] => []
  | fuel + 1, l => l.take 64 :: toBlocks fuel (l.drop 64)

/-- Big-endian 32-bit words from bytes, `fuel` words. -/
def bytesToWords : Nat → List Nat → List Nat
  | 0, _ => []
  | _ + 1, [] => []
  | fuel + 1, l =>
    w32 ((l.getD 0 0 <<< 24) ||| (l.getD 1 0 <<< 16) ||| (l.getD 2 0 <<< 8) ||| l.getD 3 0) ::
      bytesToWords fuel (l.drop 4)

/-- Big-endian bytes of a 32-bit word. -/
def wordToBytes (x : Nat) : List Nat :=
  [(x >>> 24) % 256, (x >>> 16) % 256, (x >>> 8) % 256, x % 256]

/-- The SHA-256 round constants. -/
def sha256K : List Nat :=
  [1116352408, 1899447441, 3049323471, 3921009573, 961987163, 1508970993,
   2453635748, 2870763221, 3624381080, 310598401, 607225278, 1426881987,
   1925078388, 2162078206, 2614888103, 3248222580, 3835390401, 4022224774,
   264347078, 604807628, 770255983, 1249150122, 1555081692, 1996064986,
   2554220882, 2821834349, 2952996808, 3210313671, 3336571891, 3584528711,
   113926993, 338241895, 666307205, 773529912, 1294757372, 1396182291,
   1695183700, 1986661051, 2177026350, 2456956037, 2730485921, 2820302411,
   3259730800, 3345764771, 3516065817, 3600352804, 4094571909, 275423344,
   430227734, 506948616, 659060556, 883997877, 958139571, 1322822218,
   1537002063, 1747873779, 1955562222, 2024104815, 2227730452, 2361852424,
   2428436474, 2756734187, 3204031479, 3329325298]

/-- The eight SHA-256 working variables. -/
structure Sha256State where
  a : Nat
  b : Nat
  c : Nat
  d : Nat
  e : Nat
  f : Nat
  g : Nat
  h : Nat

/-- The SHA-256 initial hash value. -/
def sha256Init : Sha256State :=
  ⟨1779033703, 3144134277, 1013904242, 2773480762,
    1359893119, 2600822924, 528734635, 1541459225⟩

/-- Extend the 16-word message schedule by `fuel` further words. -/
def sha256Extend : Nat → List Nat → List Nat
  | 0, ws => ws
  | fuel + 1, ws =>
    let t := ws.length
    let w15 := ws.getD (t - 15) 0
    let w2 := ws.getD (t - 2) 0
    let s0 := (rotr32 7 w15) ^^^ (rotr32 18 w15) ^^^ (w15 >>> 3)
    let s1 := (rotr32 17 w2) ^^^ (rotr32 19 w2) ^^^ (w2 >>> 10)
    sha256Extend fuel (ws ++ [w32 (ws.getD (t - 16) 0 + s0 + ws.getD (t - 7) 0 + s1)])

/-- One SHA-256 compression round. -/
def sha256Round (st : Sha256State) (k w : Nat) : Sha256State :=
  let s1 := (rotr32 6 st.e) ^^^ (rotr32 11 st.e) ^^^ (rotr32 25 st.e)
  let ch := (st.e &&& st.f) ^^^ ((4294967295 ^^^ st.e) &&& st.g)
  let temp1 := w32 (st.h + s1 + ch + k + w)
  let s0 := (rotr32 2 st.a) ^^^ (rotr32 13 st.a) ^^^ (rotr32 22 st.a)
  let maj := (st.a &&& st.b) ^^^ (st.a &&& st.c) ^^^ (st.b &&& st.c)
  let temp2 := w32 (s0 + maj)
  ⟨w32 (temp1 + temp2), st.a, st.b, st.c, w32 (st.d + temp1), st.e, st.f, st.g⟩

/-- The 64 compression rounds, driven by the constant and schedule lists. -/
def sha256Rounds : List Nat → List Nat → Sha256State → Sha256State
  | [], _, st => st
  | _, [], st => st
  | k :: ks, w :: ws, st => sha256Rounds ks ws (sha256Round st k w)

/-- Process one 64-byte block. -/
def sha256Block (st : Sha256State) (block : List Nat) : Sha256State :=
  let ws := sha256Extend 48 (bytesToWords 16 block)
  let r := sha256Rounds sha256K ws st
  ⟨w32 (st.a + r.a), w32 (st.b + r.b), w32 (st.c + r.c), w32 (st.d + r.d),
   w32 (st.e + r.e), w32 (st.f + r.f), w32 (st.g + r.g), w32 (st.h + r.h)⟩

/-- SHA-256 of a byte list. -/
def sha256 (msg : List Nat) : List Nat :=
  let padded := mdPad msg
  let st := (toBlocks padded.length padded).foldl sha256Block sha256Init
  wordToBytes st.a ++ wordToBytes st.b ++ wordToBytes st.c ++ wordToBytes st.d ++
    wordToBytes st.e ++ wordToBytes st.f ++ wordToBytes st.g ++ wordToBytes st.h

/-- The five SHA-1 working variables. -/
structure Sha1State where
  a : Nat
  b : Nat
  c : Nat
  d : Nat
  e : Nat

/-- The SHA-1 initial hash value. -/
def sha1Init : Sha1State :=
  ⟨1732584193, 4023233417, 2562383102, 271733878, 3285377520⟩

/-- Extend the 16-word message schedule by `fuel` further words. -/
def sha1Extend : Nat → List Nat → List Nat
  | 0, ws => ws
  | fuel + 1, ws =>
    let t := ws.length
    sha1Extend fuel (ws ++ [rotl32 1 (ws.getD (t - 3) 0 ^^^ ws.getD (t - 8) 0 ^^^
      ws.getD (t - 14) 0 ^^^ ws.getD (t - 16) 0)])

/-- The SHA-1 round function for round `t`. -/
def sha1F (t : Nat) (b c d : Nat) : Nat :=
  if t < 20 then (b &&& c) ||| ((4294967295 ^^^ b) &&& d)
  else if t < 40 then b ^^^ c ^^^ d
  else if t < 60 then (b &&& c) ||| (b &&& d) ||| (c &&& d)
  else b ^^^ c ^^^ d

/-- The SHA-1 round constant for round `t`. -/
def sha1K (t : Nat) : Nat :=
  if t < 20 then 1518500249
  else if t < 40 then 1859775393
  else if t < 60 then 2400959708
  else 3395469782

/-- The 80 compression rounds, `t` counting up from 0. -/
def sha1Rounds : Nat → List Nat → Sha1State → Sha1State
  | _, [], st => st
  | t, w :: ws, st =>
    let temp := w32 (rotl32 5 st.a + sha1F t st.b st.c st.d + st.e + sha1K t + w)
    sha1Rounds (t + 1) ws ⟨temp, st.a, rotl32 30 st.b, st.c, st.d⟩

/-- Process one 64-byte block. -/
def sha1Block (st : Sha1State) (block : List Nat) : Sha1State :=
  let ws := sha1Extend 64 (bytesToWords 16 block)
  let r := sha1Rounds 0 ws st
  ⟨w32 (st.a + r.a), w32 (st.b + r.b), w32 (st.c + r.c), w32 (st.d + r.d), w32 (st.e + r.e)⟩

/-- SHA-1 of a byte list. -/
def sha1 (msg : List Nat) : List Nat :=
  let padded := mdPad msg
  let st := (toBlocks padded.length padded).foldl sha1Block sha1Init
  wordToBytes st.a ++ wordToBytes st.b ++ wordToBytes st.c ++ wordToBytes st.d ++ wordToBytes st.e

/-- HMAC (RFC 2104) with block size 64: keys over one block are first hashed,
the key is zero-padded, and the digest is `H((K ⊕ opad) ‖ H((K ⊕ ipad) ‖ m))`. -/
def hmac (hash : List Nat → List Nat) (key msg : List Nat) : List Nat :=
  let k0 := if 64 < key.length then hash key else key
  let kPad := k0 ++ List.replicate (64 - k0.length) 0
  let ipadKey := kPad.map fun b => b ^^^ 0x36
  let opadKey := kPad.map fun b => b ^^^ 0x5c
  hash (opadKey ++ hash (ipadKey ++ msg))

/-- HMAC-SHA256, the `crypto.subtle.sign('HMAC', …)` call of
`verifySignature`. -/
def hmacSha256 (key msg : List Nat) : List Nat := hmac sha256 key msg

/-- HMAC-SHA1, the legacy fallback of `verifySha1Signature`. -/
def hmacSha1 (key msg : List Nat) : List Nat := hmac sha1 key msg

/-- UTF-8 bytes of one scalar value, as `TextEncoder` produces them. -/
def utf8EncodeChar (c : Char) : List Nat :=
  let n := c.toNat
  if n < 0x80 then [n]
  else if n < 0x800 then [0xc0 ||| (n >>> 6), 0x80 ||| (n &&& 0x3f)]
  else if n < 0x10000 then
    [0xe0 ||| (n >>> 12), 0x80 ||| ((n >>> 6) &&& 0x3f), 0x80 ||| (n &&& 0x3f)]
  else
    [0xf0 ||| (n >>> 18), 0x80 ||| ((n >>> 12) &&& 0x3f),
     0x80 ||| ((n >>> 6) &&& 0x3f), 0x80 ||| (n &&& 0x3f)]

/-- `new TextEncoder().encode(s)`. -/
def strBytes (s : List Char) : List Nat := s.flatMap utf8EncodeChar

/-- One lowercase hex digit, as `b.toString(16)` renders it (`n < 16`). -/
def hexDigitChar (n : Nat) : Char :=
  if n < 10 then Char.ofNat (48 + n) else Char.ofNat (87 + n)

/-- One byte as two hex digits: `bytes[i].toString(16).padStart(2, '0')`. -/
def byteToHex (b : Nat) : List Char := [hexDigitChar (b / 16), hexDigitChar (b % 16)]

/-- `arrayBufferToHex` from `src/utils/crypto.ts`. -/
def bytesToHex (l : List Nat) : List Char := l.flatMap byteToHex

/-! ## Signature verification (`src/services/meta-api/signature.ts`,
`src/utils/crypto.ts`) -/

/-- `constantTimeCompare(a, b)`: false on a length mismatch, otherwise OR
together the XORs of the char codes and compare the accumulator with 0. -/
def constantTimeCompare (a b : List Char) : Bool :=
  if a.length = b.length then
    ((a.zip b).foldl (fun result p => result ||| (p.1.toNat ^^^ p.2.toNat)) 0) == 0
  else false

/-- The `'sha256='` header tag. -/
def sha256Tag : List Char := "sha256=".data

/-- The `'sha1='` header tag. -/
def sha1Tag : List Char := "sha1=".data

/-- `verifySignature(body, signature, secret)`: fail closed on a missing
header, else compare `'sha256=' + hex(HMAC-SHA256(secret, body))` with the
trimmed header in constant time. -/
def verifySignature (body : List Char) (signature : Option (List Char))
    (secret : List Char) : Bool :=
  if jsTruthyStr signature = false then false
  else
    let expected := sha256Tag ++ bytesToHex (hmacSha256 (strBytes secret) (strBytes body))
    constantTimeCompare expected (jsTrim (signature.getD []))

/-- `verifySha1Signature(body, signature, secret)` (legacy SHA-1 path). -/
def verifySha1Signature (body signature secret : List Char) : Bool :=
  let expected := sha1Tag ++ bytesToHex (hmacSha1 (strBytes secret) (strBytes body))
  constantTimeCompare expected (jsTrim signature)

/-- `verifyFacebookSignature(body, sig256, sig1, secret)`: prefer the SHA-256
header when truthy, fall back to the legacy SHA-1 header, else false. -/
def verifyFacebookSignature (body : List Char) (sig256 sig1 : Option (List Char))
    (secret : List Char) : Bool :=
  if jsTruthyStr sig256 then verifySignature body sig256 secret
  else if jsTruthyStr sig1 then verifySha1Signature body (sig1.getD []) secret
  else false

/-- The spec's `sign(body, secret)`: a header of the form
`"sha256=" + hex(HMAC-SHA256(secret, body))`, stated from the spec's words to
compare against `verifySignature`. -/
def signatureHeaderFor (body secret : List Char) : List Char :=
  sha256Tag ++ bytesToHex (hmacSha256 (strBytes secret) (strBytes body))

/-- Little-endian base-256 value of a byte list (used to count digests). -/
def bytesToNat : List Nat → Nat
  | [] => 0
  | b :: rest => b + 256 * bytesToNat rest

/-! ## Engine dispatch clients

The environment's network is modelled by an oracle `Nat → EngineResponse`
giving the result of the n-th `fetch` issued by the client under study. -/

/-- A backend HTTP response: its status code and its parsed `Retry-After`
header (`none` when the header is absent). -/
structure EngineResponse where
  status : Nat
  retryAfterSecs : Option ℚ
deriving DecidableEq

/-- `HTTP_TOO_MANY_REQUESTS = 429`. -/
def HTTP_TOO_MANY_REQUESTS : Nat := 429

/-- `MAX_RETRIES = 5`. -/
def MAX_RETRIES : Nat := 5

/-- `BASE_DELAY_MS = 2000`. -/
def BASE_DELAY_MS : ℚ := 2000

/-- `RETRY_MULTIPLIER = 1.5`. -/
def RETRY_MULTIPLIER : ℚ := 3 / 2

/-- `response.ok`: status in the range 200–299. -/
def jsResponseOk (status : Nat) : Bool := 200 ≤ status && status < 300

/-- The delay `fetchWithRetry` sleeps before retry number `attempt`:
`parseFloat(retryAfter) * 1000` when the header is present, else
`BASE_DELAY_MS * Math.pow(RETRY_MULTIPLIER, attempt)`. -/
def retryDelayMs (r : EngineResponse) (attempt : Nat) : ℚ :=
  match r.retryAfterSecs with
  | some secs => secs * 1000
  | none => BASE_DELAY_MS * RETRY_MULTIPLIER ^ attempt

/-- The `for (attempt …)` loop of `fetchWithRetry`, counting down the
remaining retries; `calls` is both the count of fetches so far and the index
of the next one. Returns the final response, the total number of backend
calls made, and the list of delays slept. -/
def fetchRetryLoop (responses : Nat → EngineResponse) :
    Nat → Nat → EngineResponse → List ℚ → EngineResponse × Nat × List ℚ
  | 0, calls, current, delays => (current, calls, delays)
  | n + 1, calls, current, delays =>
    if current.status ≠ HTTP_TOO_MANY_REQUESTS then (current, calls, delays)
    else
      fetchRetryLoop responses n (calls + 1) (responses calls)
        (delays ++ [retryDelayMs current (MAX_RETRIES - (n + 1))])

/-- `fetchWithRetry` from the engine chat client (`src/services/chunking.ts`
second half): one initial fetch, then up to `MAX_RETRIES` retries that happen
only while the status is 429. -/
def fetchWithRetry (responses : Nat → EngineResponse) : EngineResponse × Nat × List ℚ :=
  fetchRetryLoop responses MAX_RETRIES 1 (responses 0) []

/-- The result of the chat client's `sendTextMessage`: the final
`fetchWithRetry` response if it is `ok`, else `null` (failure reported to the
caller). -/
def sendTextMessageResult (responses : Nat → EngineResponse) : Option EngineResponse :=
  let r := (fetchWithRetry responses).1
  if jsResponseOk r.status then some r else none

/-- `sendMessage` from the queued engine client
(`src/services/engine-client.ts`): a single fetch with no retry of any kind;
any non-`ok` status, 429 included, makes it return `null`. Paired with the
number of backend calls made (always 1). -/
def sendMessageResult (responses : Nat → EngineResponse) : Option EngineResponse × Nat :=
  let r := responses 0
  (if jsResponseOk r.status then some r else none, 1)

/-- A backend that answers 429 with `Retry-After: 1` on the first call and
200 from then on. -/
def busyThenOk : Nat → EngineResponse :=
  fun n => if n = 0 then ⟨429, some 1⟩ else ⟨200, none⟩

/-! ## Message normalization (`parseMessage` in
`src/services/message-handler.ts`) -/

/-- A contact entry of the webhook payload. -/
structure Contact where
  wa_id : List Char

/-- `raw.text`. -/
structure TextBody where
  body : List Char

/-- `raw.audio`. -/
structure AudioRef where
  id : List Char

/-- `button_reply` / `list_reply` of an interactive message. -/
structure ReplyTitle where
  title : List Char

/-- `raw.interactive`. -/
structure InteractiveBody where
  button_reply : Option ReplyTitle
  list_reply : Option ReplyTitle

/-- `raw.button`. -/
structure ButtonBody where
  text : List Char

/-- A raw message of the webhook payload (`RawMessage` in
`src/types/meta.ts`); `from_` stands for the source's `from` field. -/
structure RawMessage where
  id : List Char
  from_ : List Char
  timestamp : List Char
  type : List Char
  text : Option TextBody
  audio : Option AudioRef
  interactive : Option InteractiveBody
  button : Option ButtonBody

/-- The `MessageType` union of `src/types/meta.ts`. -/
inductive MessageType where
  | text
  | audio
  | image
  | document
  | sticker
  | location
  | contacts
  | interactive
  | button
  | unknown
deriving DecidableEq

/-- `parseMessageType`: map the raw type string onto the union, `unknown` for
anything off the list. -/
def parseMessageType (t : List Char) : MessageType :=
  if t = "text".data then .text
  else if t = "audio".data then .audio
  else if t = "image".data then .image
  else if t = "document".data then .document
  else if t = "sticker".data then .sticker
  else if t = "location".data then .location
  else if t = "contacts".data then .contacts
  else if t = "interactive".data then .interactive
  else if t = "button".data then .button
  else .unknown

/-- `extractTextFromText`. -/
def extractTextFromText (raw : RawMessage) : List Char :=
  match raw.text with
  | some t => t.body
  | none => []

/-- `extractTextFromInteractive`: the selected button or list item's title. -/
def extractTextFromInteractive (raw : RawMessage) : List Char :=
  match raw.interactive with
  | none => []
  | some i =>
    match i.button_reply with
    | some r => r.title
    | none =>
      match i.list_reply with
      | some r => r.title
      | none => []

/-- `extractTextFromButton`. -/
def extractTextFromButton (raw : RawMessage) : List Char :=
  match raw.button with
  | some b => b.text
  | none => []

/-- `extractText`: type-dependent text extraction. -/
def extractText (raw : RawMessage) (type : MessageType) : List Char :=
  if type = .text then extractTextFromText raw
  else if type = .interactive then extractTextFromInteractive raw
  else if type = .button then extractTextFromButton raw
  else []

/-- `parseInt(s, 10)`: skip leading whitespace, read an optional sign and a
digit prefix; `none` models `NaN`. -/
def jsParseInt (s : List Char) : Option Int :=
  let u := s.dropWhile jsWS
  let signAndRest : Int × List Char :=
    match u with
    | '-' :: r => (-1, r)
    | '+' :: r => (1, r)
    | _ => (1, u)
  let digits := signAndRest.2.takeWhile fun c => '0' ≤ c && c ≤ '9'
  if digits = [] then none
  else some (signAndRest.1 * (digits.foldl (fun acc c => acc * 10 + (c.toNat - 48)) 0 : Nat))

/-- The normalized `IncomingMessage`; `timestamp` is `none` when `parseInt`
yields `NaN`. -/
structure IncomingMessage where
  userId : List Char
  messageId : List Char
  messageType : MessageType
  timestamp : Option Int
  text : List Char
  mediaId : Option (List Char)
deriving DecidableEq

/-- `parseMessage(raw, contacts)`: in particular
`userId: contacts[0]?.wa_id ?? raw.from` — the first contact's `wa_id` when a
first contact exists (whatever that id's content), else the raw `from`
field. -/
def parseMessage (raw : RawMessage) (contacts : List Contact) : IncomingMessage :=
  let msgType := parseMessageType raw.type
  { userId :=
      match contacts.head? with
      | some c => c.wa_id
      | none => raw.from_
    messageId := raw.id
    messageType := msgType
    timestamp := jsParseInt raw.timestamp
    text := extractText raw msgType
    mediaId := (raw.audio.map fun a => a.id) }

/-! ## Completion callback handling (`src/services/message-handler.ts`,
`src/index.ts`)

The route parses the request body as arbitrary JSON and casts it without any
schema check, so payloads are modelled by a JSON value type and field access
by association-list lookup; a missing field is `none` (JS `undefined`). -/

/-- A JSON value. -/
inductive Json where
  | jsNull
  | jsBool (b : Bool)
  | jsNum (q : ℚ)
  | jsStr (s : List Char)
  | jsArr (elems : List Json)
  | jsObj (fields : List (List Char × Json))

/-- Property access `p[key]`: the first binding of the key on an object,
`undefined` (`none`) otherwise. -/
def getField : Json → List Char → Option Json
  | .jsObj fields, key =>
    match fields.find? fun f => f.1 = key with
    | some f => some f.2
    | none => none
  | _, _ => none

/-- `isNonEmptyString(value)`: `typeof value === 'string' && value.length > 0`
(`value` may be `undefined`). -/
def isNonEmptyString (value : Option Json) : Bool :=
  match value with
  | some (.jsStr s) => s.length > 0
  | _ => false

/-- `isStringArray(value)`:
`Array.isArray(value) && value.every(r => typeof r === 'string')`. -/
def isStringArray (value : Option Json) : Bool :=
  match value with
  | some (.jsArr elems) =>
    elems.all fun r =>
      match r with
      | .jsStr _ => true
      | _ => false
  | _ => false

/-- Whether the value of the `status` field strictly equals the given
string (`p.status === '…'`). -/
def statusIs (payload : Json) (s : List Char) : Bool :=
  match getField payload "status".data with
  | some (.jsStr t) => t = s
  | _ => false

/-- `validateCompletionCallback(payload)`: `none` for a valid payload, the
error message otherwise. `typeof payload === 'object'` holds for objects,
arrays and `null`; `null` is then rejected by the `payload === null` check. -/
def validateCompletionCallback (payload : Json) : Option (List Char) :=
  match payload with
  | .jsObj _ | .jsArr _ =>
    if isNonEmptyString (getField payload "message_id".data) = false then
      some "Missing or invalid message_id".data
    else if isNonEmptyString (getField payload "user_id".data) = false then
      some "Missing or invalid user_id".data
    else if statusIs payload "completed".data = false ∧ statusIs payload "error".data = false then
      some "Invalid status (must be \"completed\" or \"error\")".data
    else if statusIs payload "completed".data ∧
        isStringArray (getField payload "responses".data) = false then
      some "Completed callback must include responses as string[]".data
    else none
  | _ => some "Payload must be an object".data

/-- JS truthiness of a possibly-missing value (`callback.responses` in
`handleCompletionCallback`'s condition). -/
def jsTruthy (value : Option Json) : Bool :=
  match value with
  | none => false
  | some .jsNull => false
  | some (.jsBool b) => b
  | some (.jsNum q) => q ≠ 0
  | some (.jsStr s) => s ≠ []
  | some (.jsArr _) => true
  | some (.jsObj _) => true

/-- The items a `for (const text of responses)` loop visits: the elements of
an array, the one-character strings of a string, and nothing for a
non-iterable value (where the loop throws before the first iteration and the
surrounding `waitUntil` catch swallows the error). -/
def forOfItems : Json → List Json
  | .jsStr s => s.map fun c => Json.jsStr [c]
  | .jsArr elems => elems
  | _ => []

/-- The generic apology the handler sends on an engine-reported error. -/
def errorApologyText : List Char :=
  "Sorry, I encountered an error processing your message. Please try again.".data

/-- The body of `sendResponses`' loop: each string response is chunked and
each chunk sent to the user in order; a non-string response makes
`chunkMessage` throw (`text.split` on a non-string), aborting the remaining
sends. Returns the (recipient, text) messages sent via the outbound client. -/
def sendLoop (userId : List Char) (chunkSize : Nat) : List Json → List (List Char × List Char)
  | [] => []
  | .jsStr s :: rest =>
    ((chunkMessage s chunkSize).map fun chunk => (userId, chunk)) ++ sendLoop userId chunkSize rest
  | _ :: _ => []

/-- `sendResponses(userId, responses, env)` with `responses` the raw field
value the unvalidated cast lets through. -/
def sendResponses (userId : List Char) (responses : Json) (chunkSize : Nat) :
    List (List Char × List Char) :=
  sendLoop userId chunkSize (forOfItems responses)

/-- `handleCompletionCallback(callback, env)`: the messages it delivers to
the user. The opening log line evaluates `callback.user_id.slice(0, 8)`, so a
payload whose `user_id` is not a string throws there and delivers nothing;
then `status === 'completed' && callback.responses` guards the response path
and `status === 'error'` the apology path. There is no dedup record: the
handler never consults or writes any per-`message_id` state. -/
def handleCompletionCallback (callback : Json) (chunkSize : Nat) :
    List (List Char × List Char) :=
  match getField callback "user_id".data with
  | some (.jsStr userId) =>
    if statusIs callback "completed".data ∧ jsTruthy (getField callback "responses".data) then
      sendResponses userId ((getField callback "responses".data).getD .jsNull) chunkSize
    else if statusIs callback "error".data then
      [(userId, errorApologyText)]
    else []
  | _ => []

/-- What the `/completion-callback` route sends back: the HTTP status, whether
any duplicate marker (such as the `X-Deduplicated` header the e2e test looks
for) is set on the response, and the messages delivered to the user by the
background `handleCompletionCallback` task. -/
structure CallbackRouteResult where
  status : Nat
  dedupMarker : Bool
  deliveries : List (List Char × List Char)
deriving DecidableEq

/-- `app.post('/completion-callback')` from `src/index.ts`: check the
`X-Engine-Token` header against the engine key, reject unparsable JSON with
400, and otherwise hand the **unvalidated** payload to
`handleCompletionCallback` in the background and answer `200 "OK"`. The
route keeps no state between requests and never sets a duplicate marker, so
processing a payload a second time repeats exactly the same deliveries. -/
def completionCallbackRoute (engineKey : List Char) (chunkSize : Nat)
    (token : Option (List Char)) (body : Option Json) : CallbackRouteResult :=
  if token ≠ some engineKey then ⟨401, false, []⟩
  else
    match body with
    | none => ⟨400, false, []⟩
    | some callback => ⟨200, false, handleCompletionCallback callback chunkSize⟩

/-- The completion payload of the repository's own dedup e2e test:
`{message_id: 'msg-dedup-test', user_id: 'test', status: 'completed',
responses: ['Hello!']}`. -/
def dedupTestPayload : Json :=
  .jsObj
    [("message_id".data, .jsStr "msg-dedup-test".data),
     ("user_id".data, .jsStr "test".data),
     ("status".data, .jsStr "completed".data),
     ("responses".data, .jsArr [.jsStr "Hello!".data])]

/-- The invalid completion payload of the repository's own validation e2e
test: `status: 'completed'` with `responses: 'not an array'`. -/
def nonArrayResponsesPayload : Json :=
  .jsObj
    [("message_id".data, .jsStr "msg-123".data),
     ("user_id".data, .jsStr "test".data),
     ("status".data, .jsStr "completed".data),
     ("responses".data, .jsStr "not an array".data)]

/-! ## Lemmas: JS trim -/

theorem dropWhile_filter_not (p : Char → Bool) (l : List Char) :
    (l.dropWhile p).filter (fun c => !p c) = l.filter (fun c => !p c) := by
  induction l with
  | nil => rfl
  | cons a t ih =>
    by_cases h : p a
    · simp [List.dropWhile_cons, h, List.filter_cons, ih]
    · simp [List.dropWhile_cons, h, List.filter_cons]

theorem jsTrim_filter (l : List Char) : (jsTrim l).filter nonWS = l.filter nonWS := by
  unfold jsTrim
  have h1 : ∀ m : List Char, (m.reverse.filter nonWS) = (m.filter nonWS).reverse := by
    intro m; exact List.filter_reverse nonWS m
  rw [h1, show (nonWS = fun c => !jsWS c) from rfl]
  rw [dropWhile_filter_not jsWS]
  rw [← show (nonWS = fun c => !jsWS c) from rfl]
  rw [h1, List.reverse_reverse]
  rw [show (nonWS = fun c => !jsWS c) from rfl, dropWhile_filter_not jsWS]

theorem dropWhile_length_le (p : Char → Bool) (l : List Char) :
    (l.dropWhile p).length ≤ l.length := by
  induction l with
  | nil => simp
  | cons a t ih =>
    by_cases h : p a
    · simp only [List.dropWhile_cons, h, if_true]
      simpa using Nat.le_succ_of_le ih
    · simp [List.dropWhile_cons, h]

theorem jsTrim_length_le (l : List Char) : (jsTrim l).length ≤ l.length := by
  unfold jsTrim
  calc ((l.dropWhile jsWS).reverse.dropWhile jsWS).reverse.length
      = ((l.dropWhile jsWS).reverse.dropWhile jsWS).length := by simp
    _ ≤ (l.dropWhile jsWS).reverse.length := dropWhile_length_le jsWS _
    _ = (l.dropWhile jsWS).length := by simp
    _ ≤ l.length := dropWhile_length_le jsWS l

theorem head?_dropWhile (p : Char → Bool) (l : List Char) (c : Char)
    (h : (l.dropWhile p).head? = some c) : p c = false := by
  induction l with
  | nil => simp at h
  | cons a t ih =>
    by_cases hp : p a
    · rw [List.dropWhile_cons, if_pos hp] at h
      exact ih h
    · rw [List.dropWhile_cons, if_neg hp] at h
      simp at h
      rw [← h]
      exact Bool.eq_false_iff.mpr hp

theorem dropWhile_eq_self_of_head (p : Char → Bool) (l : List Char)
    (h : ∀ c, l.head? = some c → p c = false) : l.dropWhile p = l := by
  cases l with
  | nil => rfl
  | cons a t =>
    have := h a (by simp)
    simp [List.dropWhile_cons, this]

theorem getLast?_dropWhile (p : Char → Bool) (l : List Char)
    (h : l.dropWhile p ≠ []) : (l.dropWhile p).getLast? = l.getLast? := by
  induction l with
  | nil => simp at h
  | cons a t ih =>
    by_cases hp : p a
    · rw [List.dropWhile_cons, if_pos hp] at h ⊢
      rw [ih h]
      cases t with
      | nil => simp at h
      | cons b u => rw [List.getLast?_cons_cons]
    · rw [List.dropWhile_cons, if_neg hp]

theorem jsTrim_noEdge (l : List Char) : noEdgeWS (jsTrim l) := by
  constructor
  · intro c hc
    unfold jsTrim at hc
    rw [List.head?_reverse] at hc
    have hne : (l.dropWhile jsWS).reverse.dropWhile jsWS ≠ [] := by
      intro he
      rw [he] at hc
      simp at hc
    rw [getLast?_dropWhile jsWS _ hne, List.getLast?_reverse] at hc
    exact head?_dropWhile jsWS l c hc
  · intro c hc
    unfold jsTrim at hc
    rw [List.getLast?_reverse] at hc
    exact head?_dropWhile jsWS _ c hc

theorem jsTrim_eq_self (l : List Char) (h : noEdgeWS l) : jsTrim l = l := by
  unfold jsTrim
  rw [dropWhile_eq_self_of_head jsWS l h.1]
  rw [dropWhile_eq_self_of_head jsWS l.reverse (by
    intro c hc
    rw [List.head?_reverse] at hc
    exact h.2 c hc)]
  exact List.reverse_reverse l

theorem jsTrim_idem (l : List Char) : jsTrim (jsTrim l) = jsTrim l :=
  jsTrim_eq_self (jsTrim l) (jsTrim_noEdge l)

theorem jsTrim_nil_filter (l : List Char) (h : jsTrim l = []) : l.filter nonWS = [] := by
  rw [← jsTrim_filter, h]
  rfl

theorem noEdge_append (a m b : List Char) (ha : a ≠ []) (hb : b ≠ [])
    (hea : noEdgeWS a) (heb : noEdgeWS b) : noEdgeWS (a ++ m ++ b) := by
  constructor
  · intro c hc
    rw [List.append_assoc, List.head?_append_of_ne_nil _ ha] at hc
    exact hea.1 c hc
  · intro c hc
    rw [List.getLast?_append_of_ne_nil _ hb] at hc
    exact heb.2 c hc

/-! ## Lemmas: the chunking pipeline -/

theorem splitWithDelims_flatten (acc l : List Char) :
    (splitWithDelims acc l).flatten = acc.reverse ++ l := by
  induction acc, l using splitWithDelims.induct with
  | case1 acc => simp [splitWithDelims]
  | case2 acc rest ih => simp [splitWithDelims, ih]
  | case3 acc rest ih => simp [splitWithDelims, ih]
  | case4 acc rest ih => simp [splitWithDelims, ih]
  | case5 acc c rest h1 h2 h3 ih => simp [splitWithDelims, ih]

theorem reattach_flatten_filter (pieces : List (List Char)) :
    ((reattachDelimiters pieces).flatten).filter nonWS = (pieces.flatten).filter nonWS := by
  induction pieces using reattachDelimiters.induct with
  | case1 => rfl
  | case2 p t ht =>
    have ht2 : jsTrim p = [] := ht
    have e : reattachDelimiters [p] = [] := by simp [reattachDelimiters, ht2]
    rw [e]
    simp [jsTrim_nil_filter p ht2]
  | case3 p t ht =>
    have ht2 : ¬jsTrim p = [] := ht
    have e : reattachDelimiters [p] = [jsTrim p] := by simp [reattachDelimiters, ht2]
    rw [e]
    simp [jsTrim_filter p]
  | case4 p q rest hq ih =>
    by_cases h : jsTrim (p ++ q) = []
    · have e : reattachDelimiters (p :: q :: rest) = reattachDelimiters rest := by
        simp [reattachDelimiters, hq, h]
      have hpq := jsTrim_nil_filter _ h
      rw [List.filter_append] at hpq
      obtain ⟨hp, hq2⟩ := List.append_eq_nil.mp hpq
      rw [e, ih]
      simp [List.flatten_cons, List.filter_append, hp, hq2]
    · have e : reattachDelimiters (p :: q :: rest) = jsTrim (p ++ q) :: reattachDelimiters rest := by
        simp [reattachDelimiters, hq, h]
      rw [e]
      simp only [List.flatten_cons, List.filter_append, ih, jsTrim_filter]
      simp [List.filter_append, List.append_assoc]
  | case5 p q rest hq ih =>
    by_cases h : jsTrim p = []
    · have e : reattachDelimiters (p :: q :: rest) = reattachDelimiters (q :: rest) := by
        simp [reattachDelimiters, hq, h]
      rw [e, ih]
      simp [List.flatten_cons, List.filter_append, jsTrim_nil_filter p h]
    · have e : reattachDelimiters (p :: q :: rest) =
          jsTrim p :: reattachDelimiters (q :: rest) := by
        simp [reattachDelimiters, hq, h]
      rw [e]
      simp only [List.flatten_cons, List.filter_append, ih, jsTrim_filter]

theorem reattach_mem (pieces : List (List Char)) :
    ∀ x ∈ reattachDelimiters pieces, x ≠ [] ∧ noEdgeWS x := by
  induction pieces using reattachDelimiters.induct with
  | case1 => intro x hx; simp [reattachDelimiters] at hx
  | case2 p t ht =>
    intro x hx
    have ht2 : jsTrim p = [] := ht
    simp [reattachDelimiters, ht2] at hx
  | case3 p t ht =>
    intro x hx
    have ht2 : ¬jsTrim p = [] := ht
    have e : reattachDelimiters [p] = [jsTrim p] := by simp [reattachDelimiters, ht2]
    rw [e, List.mem_singleton] at hx
    subst hx
    exact ⟨ht2, jsTrim_noEdge p⟩
  | case4 p q rest hq ih =>
    intro x hx
    by_cases h : jsTrim (p ++ q) = []
    · have e : reattachDelimiters (p :: q :: rest) = reattachDelimiters rest := by
        simp [reattachDelimiters, hq, h]
      rw [e] at hx
      exact ih x hx
    · have e : reattachDelimiters (p :: q :: rest) = jsTrim (p ++ q) :: reattachDelimiters rest := by
        simp [reattachDelimiters, hq, h]
      rw [e, List.mem_cons] at hx
      rcases hx with hx | hx
      · subst hx; exact ⟨h, jsTrim_noEdge _⟩
      · exact ih x hx
  | case5 p q rest hq ih =>
    intro x hx
    by_cases h : jsTrim p = []
    · have e : reattachDelimiters (p :: q :: rest) = reattachDelimiters (q :: rest) := by
        simp [reattachDelimiters, hq, h]
      rw [e] at hx
      exact ih x hx
    · have e : reattachDelimiters (p :: q :: rest) =
          jsTrim p :: reattachDelimiters (q :: rest) := by
        simp [reattachDelimiters, hq, h]
      rw [e, List.mem_cons] at hx
      rcases hx with hx | hx
      · subst hx; exact ⟨h, jsTrim_noEdge _⟩
      · exact ih x hx

theorem filter_sep_nil (current : List Char) :
    (if current = ([] : List Char) then ([] : List Char) else [' ']).filter nonWS = [] := by
  by_cases h : current = []
  · simp [h]
  · simp [h]
    decide

theorem combineGo_flatten_filter (maxLength : Nat) (pieces : List (List Char)) :
    ∀ current : List Char,
      ((combineGo maxLength pieces current).flatten).filter nonWS =
        (current ++ pieces.flatten).filter nonWS := by
  induction pieces with
  | nil =>
    intro current
    by_cases h : current = []
    · simp [combineGo, h]
    · simp [combineGo, h]
  | cons piece rest ih =>
    intro current
    rw [show combineGo maxLength (piece :: rest) current =
      (let sep : List Char := if current = [] then [] else [' '];
       if current.length + sep.length + piece.length ≤ maxLength then
         combineGo maxLength rest (current ++ sep ++ piece)
       else
         (if current = [] then [] else [current]) ++ combineGo maxLength rest piece) from rfl]
    by_cases hfit : current.length +
      (if current = ([] : List Char) then ([] : List Char) else [' ']).length +
      piece.length ≤ maxLength
    · simp only [hfit, if_true, ih]
      simp only [List.filter_append, List.flatten_cons, filter_sep_nil, List.append_assoc,
        List.nil_append]
    · simp only [hfit, if_false]
      by_cases h : current = []
      · simp only [h, if_true, List.nil_append, ih]
        simp [List.filter_append]
      · simp only [h, if_false, List.singleton_append, List.flatten_cons]
        rw [List.filter_append, ih piece]
        simp [List.filter_append, List.append_assoc]

theorem combineGo_mem (maxLength : Nat) (pieces : List (List Char))
    (hp : ∀ p ∈ pieces, p ≠ [] ∧ noEdgeWS p) :
    ∀ current : List Char, (current = [] ∨ (current ≠ [] ∧ noEdgeWS current)) →
      ∀ c ∈ combineGo maxLength pieces current, c ≠ [] ∧ noEdgeWS c := by
  induction pieces with
  | nil =>
    intro current hcur c hc
    by_cases h : current = []
    · simp [combineGo, h] at hc
    · simp [combineGo, h] at hc
      subst hc
      rcases hcur with h2 | h2
      · exact absurd h2 h
      · exact h2
  | cons piece rest ih =>
    intro current hcur c hc
    have hpiece := hp piece (List.mem_cons_self piece rest)
    have hrest : ∀ p ∈ rest, p ≠ [] ∧ noEdgeWS p := fun p h2 => hp p (List.mem_cons_of_mem _ h2)
    rw [show combineGo maxLength (piece :: rest) current =
      (let sep : List Char := if current = [] then [] else [' '];
       if current.length + sep.length + piece.length ≤ maxLength then
         combineGo maxLength rest (current ++ sep ++ piece)
       else
         (if current = [] then [] else [current]) ++ combineGo maxLength rest piece) from rfl]
      at hc
    by_cases hfit : current.length +
      (if current = ([] : List Char) then ([] : List Char) else [' ']).length +
      piece.length ≤ maxLength
    · simp only [hfit, if_true] at hc
      by_cases h : current = []
      · simp only [h, if_true, List.nil_append] at hc
        refine ih hrest piece (Or.inr hpiece) c ?_
        simpa [h] using hc
      · refine ih hrest (current ++ (if current = ([] : List Char) then [] else [' ']) ++ piece)
          (Or.inr ⟨?_, ?_⟩) c hc
        · intro habs
          exact hpiece.1 (List.append_eq_nil.mp habs).2
        · rcases hcur with h2 | h2
          · exact absurd h2 h
          · exact noEdge_append current _ piece h hpiece.1 h2.2 hpiece.2
    · simp only [hfit, if_false] at hc
      by_cases h : current = []
      · simp only [h, if_true, List.nil_append] at hc
        exact ih hrest piece (Or.inr hpiece) c hc
      · simp only [h, if_false, List.singleton_append, List.mem_cons] at hc
        rcases hc with hc | hc
        · subst hc
          rcases hcur with h2 | h2
          · exact absurd h2 h
          · exact h2
        · exact ih hrest piece (Or.inr hpiece) c hc

theorem lastSpaceIndex_bounds (l : List Char) (k i : Nat)
    (h : lastSpaceIndex l k = some i) : i ≤ k ∧ i < l.length := by
  induction l generalizing k i with
  | nil => simp [lastSpaceIndex] at h
  | cons c rest ih =>
    cases k with
    | zero =>
      by_cases hc : c = ' '
      · simp [lastSpaceIndex, hc] at h
        simp [← h, List.length_cons]
      · simp [lastSpaceIndex, hc] at h
    | succ k =>
      rw [lastSpaceIndex] at h
      cases h2 : lastSpaceIndex rest k with
      | some j =>
        rw [h2] at h
        simp at h
        have := ih k j h2
        simp [← h, List.length_cons]
        omega
      | none =>
        rw [h2] at h
        by_cases hc : c = ' '
        · simp [hc] at h
          simp [← h, List.length_cons]
        · simp [hc] at h

theorem lastSpaceIndex_zero (l : List Char) (k : Nat)
    (h : lastSpaceIndex l k = some 0) : l.head? = some ' ' := by
  induction l generalizing k with
  | nil => simp [lastSpaceIndex] at h
  | cons c rest ih =>
    cases k with
    | zero =>
      by_cases hc : c = ' '
      · simp [hc]
      · simp [lastSpaceIndex, hc] at h
    | succ k =>
      rw [lastSpaceIndex] at h
      cases h2 : lastSpaceIndex rest k with
      | some j =>
        rw [h2] at h
        simp at h
      | none =>
        rw [h2] at h
        by_cases hc : c = ' '
        · simp [hc]
        · simp [hc] at h

theorem jsTrim_length_le_dropWhile (l : List Char) :
    (jsTrim l).length ≤ (l.dropWhile jsWS).length := by
  unfold jsTrim
  calc ((l.dropWhile jsWS).reverse.dropWhile jsWS).reverse.length
      = ((l.dropWhile jsWS).reverse.dropWhile jsWS).length := by simp
    _ ≤ (l.dropWhile jsWS).reverse.length := dropWhile_length_le jsWS _
    _ = (l.dropWhile jsWS).length := by simp

theorem jsTrim_length_lt_of_head_ws (l : List Char) (c : Char)
    (hh : l.head? = some c) (hws : jsWS c = true) : (jsTrim l).length < l.length := by
  cases l with
  | nil => simp at hh
  | cons a t =>
    simp at hh
    subst hh
    have h1 : (a :: t).dropWhile jsWS = t.dropWhile jsWS := by
      simp [List.dropWhile_cons, hws]
    have h2 := jsTrim_length_le_dropWhile (a :: t)
    rw [h1] at h2
    have h3 := dropWhile_length_le jsWS t
    simp [List.length_cons]
    omega

/-- The loop body of `forceSplit` strictly shortens `remaining` whenever
`maxLength ≥ 1` and `remaining` is still over the limit. -/
theorem forceSplit_progress (maxLength : Nat) (l : List Char) (hmax : 1 ≤ maxLength)
    (hlen : maxLength < l.length) :
    (jsTrim (l.drop ((lastSpaceIndex l maxLength).getD maxLength))).length < l.length := by
  cases h : lastSpaceIndex l maxLength with
  | none =>
    simp only [Option.getD_some, Option.getD_none]
    calc (jsTrim (l.drop maxLength)).length
        ≤ (l.drop maxLength).length := jsTrim_length_le _
      _ = l.length - maxLength := by simp
      _ < l.length := by omega
  | some i =>
    simp only [Option.getD_some]
    rcases Nat.eq_zero_or_pos i with hi | hi
    · subst hi
      rw [List.drop_zero]
      exact jsTrim_length_lt_of_head_ws l ' ' (lastSpaceIndex_zero l maxLength h) (by decide)
    · calc (jsTrim (l.drop i)).length
          ≤ (l.drop i).length := jsTrim_length_le _
        _ = l.length - i := by simp
        _ < l.length := by omega

theorem forceSplitGo_over_eq (maxLength fuel : Nat) (remaining : List Char)
    (hle : ¬ remaining.length ≤ maxLength) :
    forceSplitGo maxLength (fuel + 1) remaining =
      (if jsTrim (remaining.take ((lastSpaceIndex remaining maxLength).getD maxLength)) = []
       then []
       else [jsTrim (remaining.take ((lastSpaceIndex remaining maxLength).getD maxLength))]) ++
      forceSplitGo maxLength fuel
        (jsTrim (remaining.drop ((lastSpaceIndex remaining maxLength).getD maxLength))) := by
  rw [forceSplitGo, if_neg hle]

theorem forceSplitGo_length_le (maxLength : Nat) (hmax : 1 ≤ maxLength) :
    ∀ fuel remaining, remaining.length ≤ fuel →
      ∀ c ∈ forceSplitGo maxLength fuel remaining, c.length ≤ maxLength := by
  intro fuel
  induction fuel with
  | zero =>
    intro remaining hr c hc
    have : remaining = [] := List.eq_nil_of_length_eq_zero (Nat.le_zero.mp hr)
    subst this
    simp [forceSplitGo] at hc
  | succ fuel ih =>
    intro remaining hr c hc
    by_cases hle : remaining.length ≤ maxLength
    · rw [forceSplitGo, if_pos hle] at hc
      by_cases hnil : remaining = []
      · simp [hnil] at hc
      · rw [if_neg hnil, List.mem_singleton] at hc
        subst hc
        exact hle
    · rw [forceSplitGo, if_neg hle] at hc
      simp only [List.mem_append] at hc
      rcases hc with hc | hc
      · set sp := (lastSpaceIndex remaining maxLength).getD maxLength with hsp
        have hspmax : sp ≤ maxLength := by
          cases h2 : lastSpaceIndex remaining maxLength with
          | none => simp [hsp, h2]
          | some i =>
            simp [hsp, h2]
            exact (lastSpaceIndex_bounds remaining maxLength i h2).1
        by_cases hch : jsTrim (remaining.take sp) = []
        · simp [hch] at hc
        · rw [if_neg hch, List.mem_singleton] at hc
          subst hc
          calc (jsTrim (remaining.take sp)).length
              ≤ (remaining.take sp).length := jsTrim_length_le _
            _ ≤ sp := by simp
            _ ≤ maxLength := hspmax
      · refine ih _ ?_ c hc
        have hprog := forceSplit_progress maxLength remaining hmax (by omega)
        omega

theorem forceSplitGo_flatten_filter (maxLength : Nat) (hmax : 1 ≤ maxLength) :
    ∀ fuel remaining, remaining.length ≤ fuel →
      ((forceSplitGo maxLength fuel remaining).flatten).filter nonWS =
        remaining.filter nonWS := by
  intro fuel
  induction fuel with
  | zero =>
    intro remaining hr
    have : remaining = [] := List.eq_nil_of_length_eq_zero (Nat.le_zero.mp hr)
    subst this
    rfl
  | succ fuel ih =>
    intro remaining hr
    by_cases hle : remaining.length ≤ maxLength
    · rw [forceSplitGo, if_pos hle]
      by_cases hnil : remaining = []
      · simp [hnil]
      · rw [if_neg hnil]
        simp
    · rw [forceSplitGo_over_eq maxLength fuel remaining hle]
      have hprog := forceSplit_progress maxLength remaining hmax (by omega)
      set sp := (lastSpaceIndex remaining maxLength).getD maxLength with hsp
      have hrec := ih (jsTrim (remaining.drop sp)) (by omega)
      have htake := jsTrim_filter (remaining.take sp)
      have hdrop := jsTrim_filter (remaining.drop sp)
      by_cases hch : jsTrim (remaining.take sp) = []
      · rw [if_pos hch]
        simp only [List.nil_append, List.filter_append]
        rw [hrec, hdrop]
        have h0 : (remaining.take sp).filter nonWS = [] := jsTrim_nil_filter _ hch
        conv_rhs => rw [← List.take_append_drop sp remaining]
        rw [List.filter_append, h0, List.nil_append]
      · rw [if_neg hch]
        simp only [List.singleton_append, List.flatten_cons, List.filter_append]
        rw [hrec, hdrop, htake]
        conv_rhs => rw [← List.take_append_drop sp remaining]
        rw [List.filter_append]

theorem forceSplitGo_mem (maxLength : Nat) (hmax : 1 ≤ maxLength) :
    ∀ fuel remaining, remaining.length ≤ fuel → jsTrim remaining = remaining →
      ∀ c ∈ forceSplitGo maxLength fuel remaining, c ≠ [] ∧ jsTrim c = c := by
  intro fuel
  induction fuel with
  | zero =>
    intro remaining hr _ c hc
    have : remaining = [] := List.eq_nil_of_length_eq_zero (Nat.le_zero.mp hr)
    subst this
    simp [forceSplitGo] at hc
  | succ fuel ih =>
    intro remaining hr htrim c hc
    by_cases hle : remaining.length ≤ maxLength
    · rw [forceSplitGo, if_pos hle] at hc
      by_cases hnil : remaining = []
      · simp [hnil] at hc
      · rw [if_neg hnil, List.mem_singleton] at hc
        subst hc
        exact ⟨hnil, htrim⟩
    · rw [forceSplitGo_over_eq maxLength fuel remaining hle] at hc
      have hprog := forceSplit_progress maxLength remaining hmax (by omega)
      set sp := (lastSpaceIndex remaining maxLength).getD maxLength with hsp
      rw [List.mem_append] at hc
      rcases hc with hc | hc
      · by_cases hch : jsTrim (remaining.take sp) = []
        · simp [hch] at hc
        · rw [if_neg hch, List.mem_singleton] at hc
          subst hc
          exact ⟨hch, jsTrim_idem _⟩
      · refine ih _ ?_ (jsTrim_idem _) c hc
        omega

/-! ## Claims about the chunker -/

/-- C7: for every text whose length is at most `maxLength`, `chunkMessage`
returns exactly the one-element list `[text]` unchanged — including for the
empty string, a whitespace-only string, or input exactly at the limit. -/
theorem chunkMessage_short_unchanged (text : List Char) (maxLength : Nat)
    (h : text.length ≤ maxLength) : chunkMessage text maxLength = [text] := by
  rw [chunkMessage, if_pos h]

/-- Witness for C7 at the empty string, a whitespace-only string and an
exactly-at-limit string. -/
theorem chunkMessage_short_unchanged_witness :
    (("".data.length ≤ 100 ∧ chunkMessage "".data 100 = ["".data]) ∧
      ("   ".data.length ≤ 100 ∧ chunkMessage "   ".data 100 = ["   ".data])) ∧
      ("abc".data.length ≤ 3 ∧ chunkMessage "abc".data 3 = ["abc".data]) :=
  ⟨⟨⟨by decide, chunkMessage_short_unchanged "".data 100 (by decide)⟩,
    ⟨by decide, chunkMessage_short_unchanged "   ".data 100 (by decide)⟩⟩,
    ⟨by decide, chunkMessage_short_unchanged "abc".data 3 (by decide)⟩⟩

/-- C6: for every text and every `maxLength ≥ 1`, every element of
`chunkMessage text maxLength` has length at most `maxLength`. -/
theorem chunkMessage_length_le (text : List Char) (maxLength : Nat)
    (hmax : 1 ≤ maxLength) : ∀ c ∈ chunkMessage text maxLength, c.length ≤ maxLength := by
  intro c hc
  rw [chunkMessage] at hc
  by_cases h : text.length ≤ maxLength
  · rw [if_pos h, List.mem_singleton] at hc
    subst hc
    exact h
  · rw [if_neg h, List.mem_flatMap] at hc
    obtain ⟨piece, hmem, hc⟩ := hc
    by_cases hple : piece.length ≤ maxLength
    · rw [if_pos hple, List.mem_singleton] at hc
      subst hc
      exact hple
    · rw [if_neg hple, forceSplit] at hc
      exact forceSplitGo_length_le maxLength hmax piece.length piece le_rfl c hc

/-- Witness for C6: a sentence-free 43-character text chunked at 20, and the
50-a force-split example, all chunks within bounds. -/
theorem chunkMessage_length_le_witness :
    (1 ≤ 20 ∧
      ∀ c ∈ chunkMessage "This is a long sentence without any periods".data 20,
        c.length ≤ 20) ∧
      (1 ≤ 30 ∧
        ∀ c ∈ chunkMessage "First sentence. Second sentence. Third sentence.".data 30,
          c.length ≤ 30) :=
  ⟨⟨by decide, chunkMessage_length_le _ 20 (by decide)⟩,
    ⟨by decide, chunkMessage_length_le _ 30 (by decide)⟩⟩

/-- C8: for every text and every `maxLength ≥ 1` (at `maxLength = 0` the
source's `forceSplit` loop itself never terminates), concatenating the chunks
of `chunkMessage text maxLength` in order reproduces the input's content
losslessly: the sequence of non-whitespace characters of the joined output
equals that of the input (the inserted single-space separators and the
trimmed/normalized whitespace are exactly the neutral material the claim
sets aside). -/
theorem chunkMessage_content_lossless (text : List Char) (maxLength : Nat)
    (hmax : 1 ≤ maxLength) :
    ((chunkMessage text maxLength).flatten).filter nonWS = text.filter nonWS := by
  rw [chunkMessage]
  by_cases h : text.length ≤ maxLength
  · rw [if_pos h]
    simp
  · rw [if_neg h]
    have hstep : ∀ chunks : List (List Char),
        (((chunks.flatMap fun c =>
            if c.length ≤ maxLength then [c] else forceSplit c maxLength)).flatten).filter nonWS
          = (chunks.flatten).filter nonWS := by
      intro chunks
      induction chunks with
      | nil => rfl
      | cons c rest ih =>
        rw [List.flatMap_cons, List.flatten_append, List.filter_append, ih,
          List.flatten_cons, List.filter_append]
        congr 1
        by_cases hc : c.length ≤ maxLength
        · rw [if_pos hc]
          simp
        · rw [if_neg hc, forceSplit]
          exact forceSplitGo_flatten_filter maxLength hmax c.length c le_rfl
    rw [hstep, splitAtSentences, combineIntoChunks,
      combineGo_flatten_filter maxLength _ [], List.nil_append,
      reattach_flatten_filter, splitWithDelims_flatten]
    simp

/-- Witness for C8 on a three-sentence text over the limit. -/
theorem chunkMessage_content_lossless_witness :
    1 ≤ 20 ∧
      ((chunkMessage "Paragraph one.\n\nParagraph two, which is long.".data 20).flatten).filter
          nonWS =
        "Paragraph one.\n\nParagraph two, which is long.".data.filter nonWS :=
  ⟨by decide, chunkMessage_content_lossless _ 20 (by decide)⟩

/-- C10: for every text longer than `maxLength` (with `maxLength ≥ 1`, where
the source terminates), every element of `chunkMessage text maxLength` is a
non-empty string with no leading or trailing whitespace: trimming an emitted
chunk changes nothing. -/
theorem chunkMessage_chunks_trimmed (text : List Char) (maxLength : Nat)
    (hmax : 1 ≤ maxLength) (hlong : maxLength < text.length) :
    ∀ c ∈ chunkMessage text maxLength, c ≠ [] ∧ jsTrim c = c := by
  intro c hc
  rw [chunkMessage, if_neg (by omega), List.mem_flatMap] at hc
  obtain ⟨piece, hp, hc⟩ := hc
  have hpieceP : piece ≠ [] ∧ noEdgeWS piece := by
    rw [splitAtSentences, combineIntoChunks] at hp
    exact combineGo_mem maxLength _ (reattach_mem _) [] (Or.inl rfl) piece hp
  by_cases hple : piece.length ≤ maxLength
  · rw [if_pos hple, List.mem_singleton] at hc
    subst hc
    exact ⟨hpieceP.1, jsTrim_eq_self _ hpieceP.2⟩
  · rw [if_neg hple, forceSplit] at hc
    exact forceSplitGo_mem maxLength hmax piece.length piece le_rfl
      (jsTrim_eq_self piece hpieceP.2) c hc

/-- Witness for C10 on a long text with surrounding whitespace. -/
theorem chunkMessage_chunks_trimmed_witness :
    1 ≤ 10 ∧ 10 < "  one two three four five six seven.  ".data.length ∧
      ∀ c ∈ chunkMessage "  one two three four five six seven.  ".data 10,
        c ≠ [] ∧ jsTrim c = c :=
  ⟨by decide, by decide,
    chunkMessage_chunks_trimmed "  one two three four five six seven.  ".data 10
      (by decide) (by decide)⟩

/-! ## Lemmas: constant-time comparison and hex encoding -/

theorem nat_or_eq_zero_iff (a b : Nat) : a ||| b = 0 ↔ a = 0 ∧ b = 0 := by
  constructor
  · intro h
    constructor
    · by_contra hne
      obtain ⟨i, hi⟩ := Nat.exists_most_significant_bit hne
      have h2 : (a ||| b).testBit i = true := by
        rw [Nat.testBit_lor, hi.1]
        rfl
      rw [h] at h2
      simp [Nat.zero_testBit] at h2
    · by_contra hne
      obtain ⟨i, hi⟩ := Nat.exists_most_significant_bit hne
      have h2 : (a ||| b).testBit i = true := by
        rw [Nat.testBit_lor, hi.1]
        simp
      rw [h] at h2
      simp [Nat.zero_testBit] at h2
  · rintro ⟨rfl, rfl⟩
    rfl

theorem foldl_or_eq_zero (g : Char × Char → Nat) (l : List (Char × Char)) :
    ∀ acc, (l.foldl (fun r x => r ||| g x) acc = 0) ↔ (acc = 0 ∧ ∀ x ∈ l, g x = 0) := by
  induction l with
  | nil => intro acc; simp
  | cons x rest ih =>
    intro acc
    rw [List.foldl_cons, ih (acc ||| g x)]
    rw [nat_or_eq_zero_iff]
    constructor
    · rintro ⟨⟨h1, h2⟩, h3⟩
      exact ⟨h1, by
        intro y hy
        rcases List.mem_cons.mp hy with rfl | hy
        · exact h2
        · exact h3 y hy⟩
    · rintro ⟨h1, h2⟩
      exact ⟨⟨h1, h2 x (List.mem_cons_self x rest)⟩,
        fun y hy => h2 y (List.mem_cons_of_mem x hy)⟩

theorem char_toNat_inj (c d : Char) (h : c.toNat = d.toNat) : c = d := by
  apply Char.eq_of_val_eq
  exact UInt32.toNat.inj h

theorem zip_forall_eq (a : List Char) :
    ∀ b : List Char, a.length = b.length →
      ((∀ x ∈ a.zip b, x.1 = x.2) ↔ a = b) := by
  induction a with
  | nil =>
    intro b hb
    cases b with
    | nil => simp
    | cons y ys => simp at hb
  | cons x xs ih =>
    intro b hb
    cases b with
    | nil => simp at hb
    | cons y ys =>
      simp only [List.zip_cons_cons, List.mem_cons, List.cons.injEq]
      rw [List.length_cons, List.length_cons] at hb
      constructor
      · intro h
        refine ⟨h (x, y) (Or.inl rfl), ?_⟩
        exact (ih ys (by omega)).mp fun z hz => h z (Or.inr hz)
      · rintro ⟨rfl, rfl⟩
        intro z hz
        rcases hz with rfl | hz
        · rfl
        · exact ((ih _ (by omega)).mpr rfl) z hz

theorem constantTimeCompare_eq_beq (a b : List Char) :
    constantTimeCompare a b = (a == b) := by
  by_cases hlen : a.length = b.length
  · rw [constantTimeCompare, if_pos hlen]
    have hiff : ((a.zip b).foldl (fun result p => result ||| (p.1.toNat ^^^ p.2.toNat)) 0 = 0)
        ↔ a = b := by
      rw [foldl_or_eq_zero (fun p => p.1.toNat ^^^ p.2.toNat) (a.zip b) 0]
      rw [← zip_forall_eq a b hlen]
      constructor
      · intro h x hx
        exact char_toNat_inj x.1 x.2 (Nat.xor_eq_zero.mp (h.2 x hx))
      · intro h
        exact ⟨rfl, fun x hx => Nat.xor_eq_zero.mpr (congrArg Char.toNat (h x hx))⟩
    by_cases heq : a = b
    · subst heq
      rw [beq_self_eq_true, hiff.mpr rfl]
      rfl
    · rw [beq_eq_false_iff_ne.mpr heq,
        beq_eq_false_iff_ne.mpr (fun hf => heq (hiff.mp hf))]
  · rw [constantTimeCompare, if_neg hlen]
    have : a ≠ b := fun h => hlen (congrArg List.length h)
    rw [beq_eq_false_iff_ne.mpr this]

theorem bytesToHex_length (l : List Nat) : (bytesToHex l).length = 2 * l.length := by
  induction l with
  | nil => rfl
  | cons b t ih =>
    rw [show bytesToHex (b :: t) = byteToHex b ++ bytesToHex t from rfl]
    rw [List.length_append, ih]
    simp [byteToHex]
    omega

theorem hexDigitChar_not_ws (n : Nat) (h : n < 16) : jsWS (hexDigitChar n) = false := by
  interval_cases n <;> decide

theorem hexDigitChar_inj (m n : Nat) (hm : m < 16) (hn : n < 16)
    (h : hexDigitChar m = hexDigitChar n) : m = n := by
  revert h
  interval_cases m <;> interval_cases n <;> decide

theorem bytesToHex_not_ws (l : List Nat) (hb : ∀ b ∈ l, b < 256) :
    ∀ c ∈ bytesToHex l, jsWS c = false := by
  induction l with
  | nil => intro c hc; simp [bytesToHex] at hc
  | cons b t ih =>
    intro c hc
    have hblt := hb b (List.mem_cons_self b t)
    rw [show bytesToHex (b :: t) = byteToHex b ++ bytesToHex t from rfl,
      List.mem_append] at hc
    rcases hc with hc | hc
    · rw [byteToHex] at hc
      rcases List.mem_cons.mp hc with rfl | hc
      · exact hexDigitChar_not_ws _ (by omega)
      · rcases List.mem_singleton.mp hc with rfl
        exact hexDigitChar_not_ws _ (by omega)
    · exact ih (fun x hx => hb x (List.mem_cons_of_mem b hx)) c hc

theorem bytesToHex_inj (l1 : List Nat) :
    ∀ l2 : List Nat, (∀ b ∈ l1, b < 256) → (∀ b ∈ l2, b < 256) →
      bytesToHex l1 = bytesToHex l2 → l1 = l2 := by
  induction l1 with
  | nil =>
    intro l2 _ _ h
    cases l2 with
    | nil => rfl
    | cons b t =>
      rw [show bytesToHex (b :: t) = byteToHex b ++ bytesToHex t from rfl] at h
      simp [bytesToHex, byteToHex] at h
  | cons b1 t1 ih =>
    intro l2 hb1 hb2 h
    cases l2 with
    | nil =>
      rw [show bytesToHex (b1 :: t1) = byteToHex b1 ++ bytesToHex t1 from rfl] at h
      simp [bytesToHex, byteToHex] at h
    | cons b2 t2 =>
      rw [show bytesToHex (b1 :: t1) = byteToHex b1 ++ bytesToHex t1 from rfl,
        show bytesToHex (b2 :: t2) = byteToHex b2 ++ bytesToHex t2 from rfl,
        byteToHex, byteToHex] at h
      simp only [List.cons_append, List.nil_append, List.cons.injEq] at h
      obtain ⟨hh, hl, ht⟩ := h
      have h1 := hb1 b1 (List.mem_cons_self b1 t1)
      have h2 := hb2 b2 (List.mem_cons_self b2 t2)
      have e1 : b1 / 16 = b2 / 16 :=
        hexDigitChar_inj _ _ (by omega) (by omega) hh
      have e2 : b1 % 16 = b2 % 16 :=
        hexDigitChar_inj _ _ (by omega) (by omega) hl
      have : b1 = b2 := by omega
      subst this
      rw [ih t2 (fun x hx => hb1 x (List.mem_cons_of_mem b1 hx))
        (fun x hx => hb2 x (List.mem_cons_of_mem b1 hx)) ht]

/-! ## Lemmas: digest shape -/

theorem wordToBytes_lt (x : Nat) : ∀ b ∈ wordToBytes x, b < 256 := by
  intro b hb
  rw [wordToBytes] at hb
  rcases List.mem_cons.mp hb with rfl | hb
  · exact Nat.mod_lt _ (by norm_num)
  rcases List.mem_cons.mp hb with rfl | hb
  · exact Nat.mod_lt _ (by norm_num)
  rcases List.mem_cons.mp hb with rfl | hb
  · exact Nat.mod_lt _ (by norm_num)
  rcases List.mem_singleton.mp hb with rfl
  exact Nat.mod_lt _ (by norm_num)

theorem sha256_length (msg : List Nat) : (sha256 msg).length = 32 := by
  rw [sha256]
  simp [wordToBytes]

theorem sha256_lt (msg : List Nat) : ∀ b ∈ sha256 msg, b < 256 := by
  intro b hb
  rw [sha256] at hb
  simp only [List.mem_append] at hb
  rcases hb with ((((((hb | hb) | hb) | hb) | hb) | hb) | hb) | hb <;>
    exact wordToBytes_lt _ b hb

theorem hmacSha256_length (key msg : List Nat) : (hmacSha256 key msg).length = 32 := by
  rw [hmacSha256, hmac]
  exact sha256_length _

theorem hmacSha256_lt (key msg : List Nat) : ∀ b ∈ hmacSha256 key msg, b < 256 := by
  rw [hmacSha256, hmac]
  exact sha256_lt _

/-! ## Lemmas: the signed-header characterization of `verifySignature` -/

theorem signatureHeaderFor_ne_nil (body secret : List Char) :
    signatureHeaderFor body secret ≠ [] := by
  rw [signatureHeaderFor]
  intro h
  have := congrArg List.length h
  simp [sha256Tag] at this

theorem jsTrim_signatureHeaderFor (body secret : List Char) :
    jsTrim (signatureHeaderFor body secret) = signatureHeaderFor body secret := by
  apply jsTrim_eq_self
  constructor
  · intro c hc
    rw [signatureHeaderFor, List.head?_append_of_ne_nil _ (by simp [sha256Tag])] at hc
    rw [show sha256Tag.head? = some 's' from rfl] at hc
    simp at hc
    subst hc
    decide
  · intro c hc
    have hhexlen : (bytesToHex (hmacSha256 (strBytes secret) (strBytes body))).length = 64 := by
      rw [bytesToHex_length, hmacSha256_length]
    rw [signatureHeaderFor, List.getLast?_append_of_ne_nil _ (by
      intro h
      rw [h] at hhexlen
      simp at hhexlen)] at hc
    have hmem : c ∈ bytesToHex (hmacSha256 (strBytes secret) (strBytes body)) := by
      exact List.mem_of_mem_getLast? hc
    exact bytesToHex_not_ws _ (hmacSha256_lt _ _) c hmem

theorem verifySignature_signed (body secret secret2 : List Char) :
    verifySignature body (some (signatureHeaderFor body secret2)) secret =
      (hmacSha256 (strBytes secret2) (strBytes body) ==
        hmacSha256 (strBytes secret) (strBytes body)) := by
  have htruthy : jsTruthyStr (some (signatureHeaderFor body secret2)) = true := by
    simp [jsTruthyStr, signatureHeaderFor_ne_nil body secret2]
  rw [verifySignature]
  rw [if_neg (by rw [htruthy]; simp)]
  rw [show (some (signatureHeaderFor body secret2)).getD [] =
    signatureHeaderFor body secret2 from rfl]
  rw [jsTrim_signatureHeaderFor]
  rw [constantTimeCompare_eq_beq, signatureHeaderFor]
  by_cases hm : hmacSha256 (strBytes secret2) (strBytes body) =
      hmacSha256 (strBytes secret) (strBytes body)
  · rw [hm, beq_self_eq_true, beq_self_eq_true]
  · rw [beq_eq_false_iff_ne.mpr hm]
    rw [beq_eq_false_iff_ne.mpr (fun h => hm (bytesToHex_inj _ _
      (hmacSha256_lt _ _) (hmacSha256_lt _ _) (List.append_cancel_left h).symm))]

/-! ## Lemmas: counting digests -/

theorem bytesToNat_lt (l : List Nat) (hb : ∀ b ∈ l, b < 256) :
    bytesToNat l < 256 ^ l.length := by
  induction l with
  | nil => simp [bytesToNat]
  | cons b t ih =>
    rw [bytesToNat, List.length_cons, pow_succ]
    have h1 := hb b (List.mem_cons_self b t)
    have h2 := ih fun x hx => hb x (List.mem_cons_of_mem b hx)
    calc b + 256 * bytesToNat t
        ≤ 255 + 256 * (256 ^ t.length - 1) := by
          have : bytesToNat t ≤ 256 ^ t.length - 1 := by omega
          omega
      _ < 256 ^ t.length * 256 := by
          have hpos : 1 ≤ 256 ^ t.length := Nat.one_le_pow _ _ (by norm_num)
          calc 255 + 256 * (256 ^ t.length - 1)
              = 256 * 256 ^ t.length - 1 := by omega
            _ < 256 ^ t.length * 256 := by
                rw [Nat.mul_comm]
                omega

theorem bytesToNat_inj (l1 : List Nat) :
    ∀ l2 : List Nat, l1.length = l2.length → (∀ b ∈ l1, b < 256) → (∀ b ∈ l2, b < 256) →
      bytesToNat l1 = bytesToNat l2 → l1 = l2 := by
  induction l1 with
  | nil =>
    intro l2 hlen _ _ _
    cases l2 with
    | nil => rfl
    | cons b t => simp at hlen
  | cons b1 t1 ih =>
    intro l2 hlen hb1 hb2 h
    cases l2 with
    | nil => simp at hlen
    | cons b2 t2 =>
      rw [bytesToNat, bytesToNat] at h
      have h1 := hb1 b1 (List.mem_cons_self b1 t1)
      have h2 := hb2 b2 (List.mem_cons_self b2 t2)
      have hb : b1 = b2 := by omega
      subst hb
      have ht : bytesToNat t1 = bytesToNat t2 := by omega
      rw [List.length_cons, List.length_cons] at hlen
      rw [ih t2 (by omega) (fun x hx => hb1 x (List.mem_cons_of_mem b1 hx))
        (fun x hx => hb2 x (List.mem_cons_of_mem b1 hx)) ht]

/-! ## Claims about signature verification -/

/-- C4: for every body and secret, when neither the SHA-256 signature header
nor the legacy SHA-1 signature header is supplied (`null`),
`verifyFacebookSignature` returns `false` — it fails closed, by returning a
value rather than raising. -/
theorem verifyFacebookSignature_no_header (body secret : List Char) :
    verifyFacebookSignature body none none secret = false := by
  simp [verifyFacebookSignature, jsTruthyStr]

/-- C5 (amended): verification round-trips with signing — a header formed as
`"sha256=" + hex(HMAC-SHA256(body, secret))` verifies to `true` under the
same secret — and a header signed under `secret2` verifies under `secret`
exactly when the two HMAC-SHA256 digests coincide. For distinct secrets the
digests are different in every practical case, but not for **every** pair, so
this digest-equality condition replaces the claim's unconditional
`secret2 ≠ secret → false`. -/
theorem verifySignature_roundtrip_and_digest_eq :
    (∀ body secret, verifySignature body (some (signatureHeaderFor body secret)) secret = true) ∧
      (∀ body secret secret2,
        verifySignature body (some (signatureHeaderFor body secret2)) secret =
          (hmacSha256 (strBytes secret2) (strBytes body) ==
            hmacSha256 (strBytes secret) (strBytes body))) := by
  constructor
  · intro body secret
    rw [verifySignature_signed]
    exact beq_self_eq_true _
  · intro body secret secret2
    exact verifySignature_signed body secret secret2


theorem digest_collision_exists (g : ℕ → List Nat) (hlen : ∀ n, (g n).length = 32)
    (hlt : ∀ n, ∀ b ∈ g n, b < 256) : ∃ n m : ℕ, n ≠ m ∧ g n = g m := by
  have hbound : ∀ n : ℕ, bytesToNat (g n) < 256 ^ 32 := by
    intro n
    have h := bytesToNat_lt (g n) (hlt n)
    rw [hlen n] at h
    exact h
  obtain ⟨n, m, hnm, hf⟩ := Finite.exists_ne_map_eq_of_infinite
    (fun n : ℕ => (⟨bytesToNat (g n), hbound n⟩ : Fin (256 ^ 32)))
  refine ⟨n, m, hnm, ?_⟩
  apply bytesToNat_inj
  · rw [hlen n, hlen m]
  · exact hlt n
  · exact hlt m
  · exact congrArg Fin.val hf

/-- C5 (counterexample): the claim's second half — "for every `secret2`
different from `secret`, a header signed under `secret2` verifies to `false`
under `secret`" — is false: HMAC-SHA256 digests live in the finite set of
32-byte strings while secrets are unboundedly many, so two distinct secrets
collide on some digest, and for such a pair the cross-verification returns
`true`. -/
theorem verifySignature_distinct_secret_collision :
    ∃ body secret secret2 : List Char, secret2 ≠ secret ∧
      verifySignature body (some (signatureHeaderFor body secret2)) secret = true := by
  obtain ⟨n, m, hnm, hdig⟩ := digest_collision_exists
    (fun n => hmacSha256 (strBytes (List.replicate n 'a')) (strBytes []))
    (fun n => hmacSha256_length _ _)
    (fun n => hmacSha256_lt _ _)
  refine ⟨[], List.replicate m 'a', List.replicate n 'a', ?_, ?_⟩
  · intro h
    apply hnm
    have := congrArg List.length h
    simpa using this
  · rw [verifySignature_signed]
    have hdig2 : hmacSha256 (strBytes (List.replicate n 'a')) (strBytes []) =
        hmacSha256 (strBytes (List.replicate m 'a')) (strBytes []) := hdig
    rw [hdig2]
    exact beq_self_eq_true _

/-! ## Lemmas: the retry loop -/

theorem fetchRetryLoop_stop (responses : Nat → EngineResponse) (k calls : Nat)
    (cur : EngineResponse) (delays : List ℚ) (h : cur.status ≠ HTTP_TOO_MANY_REQUESTS) :
    fetchRetryLoop responses (k + 1) calls cur delays = (cur, calls, delays) := by
  rw [fetchRetryLoop, if_pos h]

theorem fetchRetryLoop_step (responses : Nat → EngineResponse) (k calls : Nat)
    (cur : EngineResponse) (delays : List ℚ) (h : cur.status = HTTP_TOO_MANY_REQUESTS) :
    fetchRetryLoop responses (k + 1) calls cur delays =
      fetchRetryLoop responses k (calls + 1) (responses calls)
        (delays ++ [retryDelayMs cur (MAX_RETRIES - (k + 1))]) := by
  rw [fetchRetryLoop, if_neg (by simp [h])]

theorem fetchRetryLoop_calls_le (responses : Nat → EngineResponse) :
    ∀ k calls cur delays, (fetchRetryLoop responses k calls cur delays).2.1 ≤ calls + k := by
  intro k
  induction k with
  | zero =>
    intro calls cur delays
    simp [fetchRetryLoop]
  | succ k ih =>
    intro calls cur delays
    by_cases h : cur.status ≠ HTTP_TOO_MANY_REQUESTS
    · rw [fetchRetryLoop_stop responses k calls cur delays h]
      simp
    · rw [fetchRetryLoop_step responses k calls cur delays (by omega)]
      have := ih (calls + 1) (responses calls)
        (delays ++ [retryDelayMs cur (MAX_RETRIES - (k + 1))])
      omega

theorem jsResponseOk_ne_429 (s : Nat) (h : jsResponseOk s = true) : s ≠ 429 := by
  rw [jsResponseOk] at h
  simp at h
  omega

/-! ## Claims about the backend dispatch clients -/

/-- C3 (counterexample): the queued engine client `sendMessage` — the
dispatch path the completion-callback flow actually uses — makes a single
backend call with no retry of any kind: against a backend that answers 429
with `Retry-After: 1` and would answer 200 on a second call, it returns
failure (`null`) after exactly 1 call, not the success after 2 total calls
the claim requires of every dispatch. -/
theorem sendMessage_busy_not_retried : sendMessageResult busyThenOk = (none, 1) := by
  decide

/-- C3 (amended): the chat client's `fetchWithRetry` implements exactly the
claimed policy — a 429 answered by a success yields that success after 2
total calls with the `Retry-After` delay; any non-429 first status is
terminal after 1 call and reported as failure when not `ok`; total calls
never exceed 1 + MAX_RETRIES (= 6); the delay is the header value in
milliseconds when present, else `2000 * 1.5 ^ attempt` with multiplier
greater than 1 — while the queued client `sendMessage` always makes exactly
one call and treats every non-`ok` status, 429 included, as terminal
failure. -/
theorem fetchWithRetry_retry_policy :
    (∀ responses : Nat → EngineResponse,
      (responses 0).status = 429 → jsResponseOk (responses 1).status = true →
        fetchWithRetry responses = (responses 1, 2, [retryDelayMs (responses 0) 0]) ∧
          sendTextMessageResult responses = some (responses 1)) ∧
    (∀ responses : Nat → EngineResponse, (responses 0).status ≠ 429 →
      fetchWithRetry responses = (responses 0, 1, []) ∧
        (jsResponseOk (responses 0).status = false → sendTextMessageResult responses = none)) ∧
    (∀ responses : Nat → EngineResponse, (fetchWithRetry responses).2.1 ≤ 1 + MAX_RETRIES) ∧
    (∀ (r : EngineResponse) (attempt : Nat) (q : ℚ), r.retryAfterSecs = some q →
      retryDelayMs r attempt = q * 1000) ∧
    (∀ (r : EngineResponse) (attempt : Nat), r.retryAfterSecs = none →
      retryDelayMs r attempt = BASE_DELAY_MS * RETRY_MULTIPLIER ^ attempt) ∧
    (1 : ℚ) < RETRY_MULTIPLIER ∧
    (∀ responses : Nat → EngineResponse, sendMessageResult responses =
      (if jsResponseOk (responses 0).status then some (responses 0) else none, 1)) := by
  refine ⟨?_, ?_, ?_, ?_, ?_, ?_, ?_⟩
  · intro responses h0 hok
    have hne : (responses 1).status ≠ HTTP_TOO_MANY_REQUESTS := by
      have := jsResponseOk_ne_429 _ hok
      simpa [HTTP_TOO_MANY_REQUESTS] using this
    have hfw : fetchWithRetry responses = (responses 1, 2, [retryDelayMs (responses 0) 0]) := by
      rw [fetchWithRetry, show MAX_RETRIES = 4 + 1 from rfl,
        fetchRetryLoop_step responses 4 1 (responses 0) [] (by simp [HTTP_TOO_MANY_REQUESTS, h0]),
        show (4 : Nat) = 3 + 1 from rfl,
        fetchRetryLoop_stop responses 3 2 (responses 1) _ hne]
      norm_num [MAX_RETRIES]
    refine ⟨hfw, ?_⟩
    simp [sendTextMessageResult, hfw, hok]
  · intro responses h0
    have hfw : fetchWithRetry responses = (responses 0, 1, []) := by
      rw [fetchWithRetry, show MAX_RETRIES = 4 + 1 from rfl,
        fetchRetryLoop_stop responses 4 1 (responses 0) []
          (by simpa [HTTP_TOO_MANY_REQUESTS] using h0)]
    refine ⟨hfw, ?_⟩
    intro hnok
    simp [sendTextMessageResult, hfw, hnok]
  · intro responses
    rw [fetchWithRetry]
    exact fetchRetryLoop_calls_le responses MAX_RETRIES 1 (responses 0) []
  · intro r attempt q h
    rw [retryDelayMs, h]
  · intro r attempt h
    rw [retryDelayMs, h]
  · norm_num [RETRY_MULTIPLIER]
  · intro responses
    rfl

/-- Witness for the amended C3 at the concrete busy-then-ok backend: the
success result after exactly 2 calls with a 1000 ms delay, and the queued
client's single failing call. -/
theorem fetchWithRetry_retry_policy_witness :
    (fetchWithRetry busyThenOk = (⟨200, none⟩, 2, [1000]) ∧
      sendTextMessageResult busyThenOk = some ⟨200, none⟩) ∧
      sendMessageResult busyThenOk = (none, 1) := by
  have h := fetchWithRetry_retry_policy.1 busyThenOk rfl rfl
  refine ⟨⟨?_, ?_⟩, ?_⟩
  · rw [h.1]
    norm_num [busyThenOk, retryDelayMs]
  · rw [h.2]
    rfl
  · decide

/-! ## Claims about the completion-callback path -/

/-- C1 (code bug): the `/completion-callback` route keeps no dedup record.
Submitting the repo's own dedup-test payload twice with the correct engine
token yields a delivery of "Hello!" to the user on **each** receipt — two
outbound deliveries in total — and the response never carries a duplicate
marker, where the spec (and the repo's e2e test `should deduplicate callback
with same message_id`) require exactly one delivery and a marker on the
second response. -/
theorem completionCallback_no_dedup :
    completionCallbackRoute "engine-key".data 1500 (some "engine-key".data)
        (some dedupTestPayload) =
      ⟨200, false, [("test".data, "Hello!".data)]⟩ ∧
    ((completionCallbackRoute "engine-key".data 1500 (some "engine-key".data)
        (some dedupTestPayload)).deliveries ++
      (completionCallbackRoute "engine-key".data 1500 (some "engine-key".data)
        (some dedupTestPayload)).deliveries).length = 2 := by
  constructor
  · decide
  · decide

/-- C2 (code bug): `validateCompletionCallback` does reject a completed
payload whose `responses` is the string "not an array", but the route never
invokes the validator: the same request is answered 200 and the background
handler iterates the string, delivering each of its 12 characters to the
user as a separate message — where the spec (and the repo's e2e test
`should reject completed callback with non-array responses`) require a 400
validation error and no delivery. -/
theorem completionCallback_invalid_not_rejected :
    validateCompletionCallback nonArrayResponsesPayload =
      some "Completed callback must include responses as string[]".data ∧
    (completionCallbackRoute "engine-key".data 1500 (some "engine-key".data)
        (some nonArrayResponsesPayload)).status = 200 ∧
    (completionCallbackRoute "engine-key".data 1500 (some "engine-key".data)
        (some nonArrayResponsesPayload)).deliveries.length = 12 := by
  refine ⟨?_, ?_, ?_⟩
  · decide
  · decide
  · decide

/-! ## Claims about message normalization -/

/-- C9 (counterexample): a raw message whose `from` field is the empty
string, arriving with an empty contacts list, is normalized to an
`IncomingMessage` whose `userId` is empty — `parseMessage` enforces no
non-emptiness anywhere. -/
theorem parseMessage_userId_can_be_empty :
    (parseMessage
      ⟨"id1".data, [], "123".data, "text".data, some ⟨"hi".data⟩, none, none, none⟩
      []).userId = [] := rfl

/-- C9 (amended): `userId` is the first contact's `wa_id` when a first
contact exists, else the raw sender field (`contacts[0]?.wa_id ?? raw.from`),
and it is non-empty provided the selected source field is non-empty — the
code itself never enforces non-emptiness, so the claim's unconditional
"never empty" does not hold. -/
theorem parseMessage_userId_resolution :
    (∀ (raw : RawMessage) (contacts : List Contact),
      (parseMessage raw contacts).userId =
        match contacts.head? with
        | some c => c.wa_id
        | none => raw.from_) ∧
    (∀ (raw : RawMessage) (contacts : List Contact),
      (∀ c ∈ contacts.take 1, c.wa_id ≠ []) → raw.from_ ≠ [] →
        (parseMessage raw contacts).userId ≠ []) := by
  constructor
  · intro raw contacts
    rfl
  · intro raw contacts hc hf
    rw [show (parseMessage raw contacts).userId =
      (match contacts.head? with
       | some c => c.wa_id
       | none => raw.from_) from rfl]
    cases contacts with
    | nil => simpa using hf
    | cons d t =>
      rw [show (d :: t).head? = some d from rfl]
      exact hc d (by simp)
